import Mathlib

/-!
Shallow embedding of the route compiler and matcher of `tombl/router`
(`src/matcher.ts`, `src/route.ts`).

The source compiles an ordered route table into a single JavaScript regular
expression: the alternation, over the routes in registration order, of
`^(<seg1>/<seg2>/.../<segn>)$` where each pattern segment lowers to

  * a `*` segment        -> `(?<splat>.*)`          (only legal in last position,
                                                     otherwise construction throws),
  * a `:name` segment    -> `(?<name_i>[^/]+?)`     (`NAMED_SEGMENT`, case-insensitive,
                                                     a letter followed by alphanumerics),
  * any other segment    -> `escape(segment)`        (an exact literal).

Because every lowered segment other than the trailing splat can never match a
`/`, and the segments are joined by literal `/`, the regular expression matches
a path exactly when the path decomposes section-by-section against the
segments; no backtracking across `/` boundaries is possible and the lazy
quantifier in `[^/]+?` is forced to capture exactly one whole section.  The
embedding below therefore matches segment lists directly against the path.
In JavaScript, `.` in a regex without the `s` flag matches any character
except the line terminators U+000A, U+000D, U+2028 and U+2029, while the
negated class `[^/]` matches every character except `/`; both facts are kept
by the embedding.  The alternation of whole-path-anchored alternatives tried
left to right, together with the `mapping` side table and the
first-participating-group scan in the source, selects the first route in
registration order whose pattern matches, which the embedding models by
trying the compiled routes in order.
-/

namespace Router

/-- Paths, patterns and captured values are sequences of characters. -/
abbrev Str := List Char

/-- Characters of a string literal, for readable concrete statements. -/
def str (s : String) : Str := s.data

/-- `pattern.split("/")` / `pathname` sectioning: split on every `/`,
never dropping empty pieces, with `"" ↦ [""]`. -/
def splitOnSlash : Str → List Str
  | [] => [[]]
  | c :: rest =>
    if c = '/' then [] :: splitOnSlash rest
    else
      match splitOnSlash rest with
      | [] => [[c]]
      | s :: ss => (c :: s) :: ss

/-- Inverse of `splitOnSlash`: re-join pieces with `/`. -/
def joinSlash : List Str → Str
  | [] => []
  | [s] => s
  | s :: s' :: ss => s ++ '/' :: joinSlash (s' :: ss)

/-- One segment of a parsed route pattern (`type Segment` in `src/route.ts`). -/
inductive Segment
  | static (value : Str)
  | param (name : Str)
  | splat
  deriving DecidableEq, Repr

/-- `NAMED_SEGMENT = /^:([a-z][a-z0-9]*)$/i`: a `:` followed by an ASCII
letter and then ASCII alphanumerics; returns the captured name. -/
def namedSegment : Str → Option Str
  | ':' :: c :: rest =>
    if c.isAlpha && rest.all Char.isAlphanum then some (c :: rest) else none
  | _ => none

/-- Classification of one piece of a split pattern, as in `createMatcher`
(`src/matcher.ts`) and `createRoute` (`src/route.ts`): a `*` piece is a splat
but throws (here: `none`) unless it is the last piece; a `NAMED_SEGMENT`
piece is a parameter; anything else is a static literal. -/
def classifySegment (seg : Str) (isLast : Bool) : Option Segment :=
  if seg = ['*'] then
    if isLast then some Segment.splat else none
  else
    match namedSegment seg with
    | some name => some (Segment.param name)
    | none => some (Segment.static seg)

/-- Classify every piece, tracking which piece is last. -/
def classifyAll : List Str → Option (List Segment)
  | [] => some []
  | [seg] => (classifySegment seg true).map (fun s => [s])
  | seg :: seg2 :: rest =>
    (classifySegment seg false).bind (fun s =>
      (classifyAll (seg2 :: rest)).map (fun ss => s :: ss))

/-- Parse one route pattern into segments; `none` models the construction-time
exception for a non-terminal `*` segment. -/
def parseRoute (route : Str) : Option (List Segment) :=
  classifyAll (splitOnSlash route)

/-- JavaScript line terminators: the characters `.` does not match in a regex
without the `s` flag. -/
def isLineTerminator (c : Char) : Bool :=
  c = '\n' || c = '\r' || c = Char.ofNat 0x2028 || c = Char.ofNat 0x2029

/-- One named capture, before the parameter object is built: the recovered
name (`name_i` with the `_i` suffix stripped, or `*` for the splat group)
paired with the captured text, in capture-group order. -/
abbrev Binding := Str × Str

/-- Match a segment list against a path, returning the captures in group
order, or `none` when the compiled pattern does not match.

For the non-last segments, the next pattern character is a literal `/` and
the segment itself cannot match `/`, so the segment is matched against
exactly the characters up to the next `/` of the path.  The last segment must
consume the entire rest of the path (the alternative is anchored with `$`).
The static case relies on `escape` (`src/regexp-escape.ts`, not under `src/`).
Modelled from the spec: static segments lower to an exact-literal match with
the meta-characters of the regular-expression syntax neutralized, so an
escaped literal matches exactly its own text.  A non-terminal splat never
reaches matching because `parseRoute` rejects it at construction time. -/
def matchSegs : List Segment → Str → Option (List Binding)
  | [], cs => if cs = [] then some [] else none
  | [Segment.static v], cs => if cs = v then some [] else none
  | [Segment.param n], cs =>
    if cs ≠ [] ∧ cs.all (· ≠ '/') then some [(n, cs)] else none
  | [Segment.splat], cs =>
    if cs.all (fun c => !(isLineTerminator c)) then some [(['*'], cs)] else none
  | seg :: seg2 :: rest, cs =>
    let sec := cs.takeWhile (· ≠ '/')
    match cs.dropWhile (· ≠ '/') with
    | '/' :: tail =>
      match seg with
      | Segment.static v =>
        if sec = v then matchSegs (seg2 :: rest) tail else none
      | Segment.param n =>
        if sec ≠ [] then (matchSegs (seg2 :: rest) tail).map (fun bs => (n, sec) :: bs)
        else none
      | Segment.splat => none
    | _ => none

/-- The parameter object handed to the handler: association list in key
insertion order, later writes to the same key overwriting in place, exactly
as JavaScript object assignment behaves for the `groups` loop. -/
abbrev ParamsMap := List (Str × Str)

/-- `object[k] = v`: overwrite in place, or append a new key. -/
def setParam : ParamsMap → Str → Str → ParamsMap
  | [], k, v => [(k, v)]
  | (k', v') :: rest, k, v =>
    if k' = k then (k', v) :: rest else (k', v') :: setParam rest k v

/-- Fold the captures, in group order, into the parameter object. -/
def buildParams (bs : List Binding) : ParamsMap :=
  bs.foldl (fun m b => setParam m b.1 b.2) []

/-- Read a key of the parameter object. -/
def getParam (m : ParamsMap) (k : Str) : Option Str :=
  (m.find? (fun p => p.1 = k)).map (fun p => p.2)

/-- Parse every pattern of the table, propagating the construction-time
exception of the first bad pattern. -/
def parseAll : List Str → Option (List (List Segment))
  | [] => some []
  | pat :: rest =>
    (parseRoute pat).bind (fun segs =>
      (parseAll rest).map (fun compiled => segs :: compiled))

/-- Try the compiled routes in registration order; on the first pattern that
matches, return its index together with its parameter object.  This is what
the single alternation regex plus the `mapping` side table and the
first-participating-group scan compute in the source. -/
def matchFirst : List (List Segment) → Str → Option (Nat × ParamsMap)
  | [], _ => none
  | segs :: rest, cs =>
    match matchSegs segs cs with
    | some bs => some (0, buildParams bs)
    | none => (matchFirst rest cs).map (fun r => (r.1 + 1, r.2))

/-- A route table: patterns with their handlers, in registration order. -/
abbrev Table (T : Type) := List (Str × (ParamsMap → T))

/-- `createMatcher` (`src/matcher.ts`): compile the table into a match
function, or fail (`none`) with the construction-time exception.  An empty
table compiles to the matcher that never matches. -/
def createMatcher {T : Type} (routes : Table T) : Option (Str → Option T) :=
  match parseAll (routes.map Prod.fst) with
  | none => none
  | some compiled =>
    some (fun pathname =>
      (matchFirst compiled pathname).bind (fun r =>
        (routes[r.1]?).map (fun e => e.2 r.2)))

/-- Resolve a path against a table, conflating construction failure with
no-match; concrete statements also assert construction success separately. -/
def resolve {T : Type} (routes : Table T) (p : Str) : Option T :=
  match createMatcher routes with
  | some m => m p
  | none => none

/-- Handler that lets the theorems observe the parameter object it received. -/
def obs : ParamsMap → ParamsMap := id

/-- Handler that tags the parameter object with a label. -/
def tag (l : String) : ParamsMap → String × ParamsMap := fun ps => (l, ps)

/-- A pattern string places a `*` piece somewhere other than the final
position. -/
def hasNonTerminalSplat (pat : Str) : Bool :=
  ((splitOnSlash pat).dropLast).any (· = ['*'])

/-- The segment is a static literal. -/
def isStaticSeg : Segment → Bool
  | Segment.static _ => true
  | _ => false

/-- Number of capturing groups a route's segments contribute beyond its
outer group: one per param and per splat segment (the `i++` steps inside the
segment loop of `createMatcher`). -/
def numCaps (segs : List Segment) : Nat :=
  segs.countP (fun s => !(isStaticSeg s))

/-- Zero-based index of route `k`'s outer capturing group in the combined
regular expression: every earlier route contributes its outer group plus its
inner captures.  Group numbers in the match array are this value plus one. -/
def prefixCaps : List (List Segment) → Nat → Nat
  | _, 0 => 0
  | [], _ + 1 => 0
  | segs :: rest, k + 1 => 1 + numCaps segs + prefixCaps rest k

/-- The `mapping` side table of `createMatcher`: walking the routes with the
running capture count `i` and the route count `j`, record `mapping[i] = j`
at each route's outer group position and skip over the inner captures. -/
def buildMapping : List (List Segment) → Nat → Nat → List (Nat × Nat)
  | [], _, _ => []
  | segs :: rest, i, j =>
    (i, j) :: buildMapping rest (i + 1 + numCaps segs) (j + 1)

/-- `mapping[idx]` of the (sparse) side table. -/
def lookupMapping (m : List (Nat × Nat)) (idx : Nat) : Option Nat :=
  (m.find? (fun p => p.1 = idx)).map (fun p => p.2)

/-- Characters `encodeURIComponent` leaves as-is: ASCII alphanumerics and
`- _ . ! ~ * ' ( )`. -/
def isUriUnreserved (c : Char) : Bool :=
  c.isAlphanum || c = '-' || c = '_' || c = '.' || c = '!' || c = '~' ||
    c = '*' || c = '\'' || c = '(' || c = ')'

/-- The UTF-8 bytes of a character, as numbers below 256. -/
def utf8Bytes (c : Char) : List Nat :=
  let n := c.toNat
  if n < 0x80 then [n]
  else if n < 0x800 then [0xC0 + n / 64, 0x80 + n % 64]
  else if n < 0x10000 then
    [0xE0 + n / 4096, 0x80 + (n / 64) % 64, 0x80 + n % 64]
  else
    [0xF0 + n / 262144, 0x80 + (n / 4096) % 64, 0x80 + (n / 64) % 64,
      0x80 + n % 64]

/-- Upper-case hexadecimal digit of a number below 16. -/
def hexDigit (n : Nat) : Char :=
  if n < 10 then Char.ofNat ('0'.toNat + n) else Char.ofNat ('A'.toNat + n - 10)

/-- `%XX` encoding of one byte. -/
def percentEncodeByte (b : Nat) : Str :=
  ['%', hexDigit (b / 16), hexDigit (b % 16)]

/-- JavaScript `encodeURIComponent`: unreserved characters kept, every other
character replaced by the `%XX` encodings of its UTF-8 bytes. -/
def encodeURIComponent (s : Str) : Str :=
  s.flatMap (fun c =>
    if isUriUnreserved c then [c] else (utf8Bytes c).flatMap percentEncodeByte)

/-- The per-segment substitution of `href` (`src/route.ts`): the splat value
verbatim, parameter values percent-encoded, static values verbatim. -/
def substSeg (params : Str → Str) : Segment → Str
  | Segment.splat => params ['*']
  | Segment.param n => encodeURIComponent (params n)
  | Segment.static v => v

/-- `href` (`src/route.ts`): substitute the parameter values into the parsed
segments, join with `/`, then replace an empty result by `/` and prepend `/`
when the result does not already start with one. -/
def href (segs : List Segment) (params : Str → Str) : Str :=
  let url := joinSlash (segs.map (substSeg params))
  let url := if url = [] then ['/'] else url
  if url.head? = some '/' then url else '/' :: url

/-- Per-piece substitution directly on the pattern string, exactly as the
specification words it: each Param piece and each Splat piece replaced by
the percent-encoded parameter value, every Static piece untouched. -/
def substPartClaimed (params : Str → Str) (seg : Str) : Str :=
  if seg = ['*'] then encodeURIComponent (params ['*'])
  else
    match namedSegment seg with
    | some n => encodeURIComponent (params n)
    | none => seg

/-- The href behavior exactly as the specification claims it: the literal
path reconstructed from the pattern by the claimed per-piece substitution. -/
def hrefClaimed (pat : Str) (params : Str → Str) : Str :=
  joinSlash ((splitOnSlash pat).map (substPartClaimed params))

/-- Amended per-piece substitution: the splat value is substituted verbatim,
not percent-encoded. -/
def substPart (params : Str → Str) (seg : Str) : Str :=
  if seg = ['*'] then params ['*']
  else
    match namedSegment seg with
    | some n => encodeURIComponent (params n)
    | none => seg

/-- The amended href behavior: the pattern with parameter values substituted
(splat value verbatim), normalized to start with `/` (an empty result
becomes `/`). -/
def hrefAmended (pat : Str) (params : Str → Str) : Str :=
  let url := joinSlash ((splitOnSlash pat).map (substPart params))
  if url = [] then ['/'] else if url.head? = some '/' then url else '/' :: url

/-! ### Basic facts about splitting and joining -/

theorem splitOnSlash_ne_nil (s : Str) : splitOnSlash s ≠ [] := by
  induction s with
  | nil => simp [splitOnSlash]
  | cons c rest ih =>
    simp only [splitOnSlash]
    split
    · simp
    · split <;> simp

theorem joinSlash_cons_head (c : Char) (s : Str) (ss : List Str) :
    joinSlash ((c :: s) :: ss) = c :: joinSlash (s :: ss) := by
  cases ss <;> simp [joinSlash]

theorem joinSlash_splitOnSlash (s : Str) : joinSlash (splitOnSlash s) = s := by
  induction s with
  | nil => simp [splitOnSlash, joinSlash]
  | cons c rest ih =>
    simp only [splitOnSlash]
    obtain ⟨t, ts, h⟩ := List.exists_cons_of_ne_nil (splitOnSlash_ne_nil rest)
    rw [h] at ih
    by_cases hc : c = '/'
    · subst hc
      rw [if_pos rfl, h]
      show joinSlash ([] :: t :: ts) = '/' :: rest
      simp [joinSlash, ih]
    · rw [if_neg hc, h]
      show joinSlash ((c :: t) :: ts) = c :: rest
      rw [joinSlash_cons_head, ih]

theorem splitOnSlash_no_slash (s : Str) :
    ∀ part ∈ splitOnSlash s, ∀ c ∈ part, c ≠ '/' := by
  induction s with
  | nil => simp [splitOnSlash]
  | cons c rest ih =>
    simp only [splitOnSlash]
    obtain ⟨t, ts, h⟩ := List.exists_cons_of_ne_nil (splitOnSlash_ne_nil rest)
    by_cases hc : c = '/'
    · subst hc
      rw [if_pos rfl]
      intro part hp
      rcases List.mem_cons.mp hp with hp | hp
      · simp [hp]
      · exact ih part hp
    · rw [if_neg hc, h]
      intro part hp
      rcases List.mem_cons.mp hp with hp | hp
      · subst hp
        intro x hx
        rcases List.mem_cons.mp hx with hx | hx
        · subst hx; exact hc
        · exact ih t (by rw [h]; exact List.mem_cons_self _ _) x hx
      · exact ih part (by rw [h]; exact List.mem_cons_of_mem _ hp)

theorem takeWhile_slash (s t : Str) (hs : ∀ c ∈ s, c ≠ '/') :
    (s ++ '/' :: t).takeWhile (· ≠ '/') = s := by
  induction s with
  | nil => simp [List.takeWhile_cons]
  | cons c cs ih =>
    have hc : c ≠ '/' := hs c (List.mem_cons_self _ _)
    have ih' := ih (fun x hx => hs x (List.mem_cons_of_mem _ hx))
    simp only [ne_eq, decide_not] at ih'
    simp only [List.cons_append, List.takeWhile_cons]
    simp [hc, ih']

theorem dropWhile_slash (s t : Str) (hs : ∀ c ∈ s, c ≠ '/') :
    (s ++ '/' :: t).dropWhile (· ≠ '/') = '/' :: t := by
  induction s with
  | nil => simp [List.dropWhile_cons]
  | cons c cs ih =>
    have hc : c ≠ '/' := hs c (List.mem_cons_self _ _)
    have ih' := ih (fun x hx => hs x (List.mem_cons_of_mem _ hx))
    simp only [ne_eq, decide_not] at ih'
    simp only [List.cons_append, List.dropWhile_cons]
    simp [hc, ih']

/-! ### Characterizing segment matching -/

theorem matchSegs_static_last {v cs : Str} {bs : List Binding} :
    matchSegs [Segment.static v] cs = some bs ↔ cs = v ∧ bs = [] := by
  unfold matchSegs
  split_ifs with h
  · simp [h, eq_comm]
  · simp [h]

theorem matchSegs_param_last {n cs : Str} {bs : List Binding} :
    matchSegs [Segment.param n] cs = some bs ↔
      cs ≠ [] ∧ (∀ c ∈ cs, c ≠ '/') ∧ bs = [(n, cs)] := by
  unfold matchSegs
  split_ifs with h
  · rcases h with ⟨h1, h2⟩
    simp only [List.all_eq_true, decide_eq_true_eq] at h2
    constructor
    · intro hh
      injection hh with hh
      exact ⟨h1, h2, hh.symm⟩
    · rintro ⟨-, -, rfl⟩
      rfl
  · rw [not_and_or] at h
    constructor
    · intro hh; simp at hh
    · rintro ⟨h1, h2, rfl⟩
      rcases h with h | h
      · exact absurd h1 (by simpa using h)
      · exact h (List.all_eq_true.mpr fun c hc => decide_eq_true (h2 c hc))

theorem matchSegs_splat_last {cs : Str} {bs : List Binding} :
    matchSegs [Segment.splat] cs = some bs ↔
      (∀ c ∈ cs, isLineTerminator c = false) ∧ bs = [(['*'], cs)] := by
  unfold matchSegs
  split_ifs with h
  · simp only [List.all_eq_true, Bool.not_eq_true'] at h
    constructor
    · intro hh
      injection hh with hh
      exact ⟨h, hh.symm⟩
    · rintro ⟨-, rfl⟩
      rfl
  · constructor
    · intro hh; simp at hh
    · rintro ⟨h1, rfl⟩
      exact h (List.all_eq_true.mpr fun c hc => by simp [h1 c hc])

theorem matchSegs_static_cons {v : Str} {seg2 : Segment} {rest : List Segment}
    {cs : Str} {bs : List Binding} (hv : ∀ c ∈ v, c ≠ '/') :
    matchSegs (Segment.static v :: seg2 :: rest) cs = some bs ↔
      ∃ tail, cs = v ++ '/' :: tail ∧ matchSegs (seg2 :: rest) tail = some bs := by
  constructor
  · intro h
    simp only [matchSegs] at h
    split at h
    · next tail heq =>
      split_ifs at h with hsec
      refine ⟨tail, ?_, h⟩
      have hsplit := List.takeWhile_append_dropWhile (p := (· ≠ '/')) (l := cs)
      rw [heq, hsec] at hsplit
      exact hsplit.symm
    · exact absurd h (by simp)
  · rintro ⟨tail, rfl, hm⟩
    simp only [matchSegs]
    rw [takeWhile_slash _ _ hv, dropWhile_slash _ _ hv]
    simp [hm]

theorem matchSegs_param_cons {n : Str} {seg2 : Segment} {rest : List Segment}
    {cs : Str} {bs : List Binding} :
    matchSegs (Segment.param n :: seg2 :: rest) cs = some bs ↔
      ∃ sec tail bs', cs = sec ++ '/' :: tail ∧ sec ≠ [] ∧
        (∀ c ∈ sec, c ≠ '/') ∧ matchSegs (seg2 :: rest) tail = some bs' ∧
        bs = (n, sec) :: bs' := by
  constructor
  · intro h
    simp only [matchSegs] at h
    split at h
    · next tail heq =>
      split_ifs at h with hsec
      rcases Option.map_eq_some'.mp h with ⟨bs', hbs', rfl⟩
      refine ⟨cs.takeWhile (· ≠ '/'), tail, bs', ?_, hsec, ?_, hbs', rfl⟩
      · have hsplit := List.takeWhile_append_dropWhile (p := (· ≠ '/')) (l := cs)
        rw [heq] at hsplit
        exact hsplit.symm
      · intro c hc
        have := List.mem_takeWhile_imp hc
        simpa using this
    · exact absurd h (by simp)
  · rintro ⟨sec, tail, bs', rfl, hne, hsec, hm, rfl⟩
    simp only [matchSegs]
    rw [takeWhile_slash _ _ hsec, dropWhile_slash _ _ hsec]
    simp [hne, hm]

/-! ### Parsing and the construction-time error -/

theorem classifySegment_false_eq_none_iff {seg : Str} :
    classifySegment seg false = none ↔ seg = ['*'] := by
  unfold classifySegment
  by_cases h : seg = ['*']
  · simp [h]
  · rw [if_neg h]
    cases hns : namedSegment seg <;> simp [h]

theorem classifySegment_true_ne_none {seg : Str} :
    classifySegment seg true ≠ none := by
  unfold classifySegment
  by_cases h : seg = ['*']
  · simp [h]
  · rw [if_neg h]
    cases hns : namedSegment seg <;> simp

theorem classifyAll_eq_none_iff {parts : List Str} :
    classifyAll parts = none ↔ parts.dropLast.any (· = ['*']) = true := by
  induction parts with
  | nil => simp [classifyAll]
  | cons seg rest ih =>
    cases rest with
    | nil =>
      simp only [classifyAll, List.dropLast_single, List.any_nil]
      rcases hc : classifySegment seg true with _ | s
      · exact absurd hc classifySegment_true_ne_none
      · simp
    | cons seg2 rest2 =>
      constructor
      · intro h
        simp only [classifyAll] at h
        rcases hc : classifySegment seg false with _ | s
        · have hseg := classifySegment_false_eq_none_iff.mp hc
          simp [List.dropLast_cons₂, hseg]
        · rw [hc] at h
          simp only [Option.some_bind, Option.map_eq_none'] at h
          have := ih.mp h
          simp [List.dropLast_cons₂, List.any_cons, this]
      · intro h
        simp only [List.dropLast_cons₂, List.any_cons, Bool.or_eq_true] at h
        simp only [classifyAll]
        rcases h with h | h
        · have hseg : seg = ['*'] := by simpa using h
          rw [classifySegment_false_eq_none_iff.mpr hseg]
          rfl
        · rw [ih.mpr h]
          cases classifySegment seg false <;> simp

theorem parseRoute_eq_none_iff {pat : Str} :
    parseRoute pat = none ↔ hasNonTerminalSplat pat = true := by
  unfold parseRoute hasNonTerminalSplat
  exact classifyAll_eq_none_iff

theorem parseAll_eq_none_iff {pats : List Str} :
    parseAll pats = none ↔ ∃ pat ∈ pats, parseRoute pat = none := by
  induction pats with
  | nil => simp [parseAll]
  | cons pat rest ih =>
    constructor
    · intro h
      simp only [parseAll] at h
      rcases h1 : parseRoute pat with _ | segs
      · exact ⟨pat, List.mem_cons_self _ _, h1⟩
      · rw [h1] at h
        simp only [Option.some_bind, Option.map_eq_none'] at h
        obtain ⟨q, hq, hq2⟩ := ih.mp h
        exact ⟨q, List.mem_cons_of_mem _ hq, hq2⟩
    · rintro ⟨q, hq, hq2⟩
      simp only [parseAll]
      rcases List.mem_cons.mp hq with rfl | hq
      · rw [hq2]; rfl
      · rw [ih.mpr ⟨q, hq, hq2⟩]
        cases parseRoute pat <;> simp

theorem parseAll_cons {pat : Str} {rest : List Str}
    {compiled : List (List Segment)} :
    parseAll (pat :: rest) = some compiled ↔
      ∃ segs cs, parseRoute pat = some segs ∧ parseAll rest = some cs ∧
        compiled = segs :: cs := by
  simp only [parseAll, Option.bind_eq_some, Option.map_eq_some']
  constructor
  · rintro ⟨segs, h1, cs, h2, rfl⟩
    exact ⟨segs, cs, h1, h2, rfl⟩
  · rintro ⟨segs, cs, h1, h2, rfl⟩
    exact ⟨segs, h1, cs, h2, rfl⟩

theorem parseAll_get {pats : List Str} {compiled : List (List Segment)}
    (h : parseAll pats = some compiled) :
    ∀ (k : Nat) (pat : Str), pats[k]? = some pat →
      ∃ segs, compiled[k]? = some segs ∧ parseRoute pat = some segs := by
  induction pats generalizing compiled with
  | nil => intro k pat hk; simp at hk
  | cons p rest ih =>
    obtain ⟨segs, cs, h1, h2, rfl⟩ := parseAll_cons.mp h
    intro k pat hk
    cases k with
    | zero =>
      simp only [List.getElem?_cons_zero, Option.some.injEq] at hk
      subst hk
      exact ⟨segs, by simp, h1⟩
    | succ k' =>
      simp only [List.getElem?_cons_succ] at hk ⊢
      exact ih h2 k' pat hk

theorem parseAll_length {pats : List Str} {compiled : List (List Segment)}
    (h : parseAll pats = some compiled) : compiled.length = pats.length := by
  induction pats generalizing compiled with
  | nil =>
    simp only [parseAll] at h
    injection h with h
    simp [← h]
  | cons p rest ih =>
    obtain ⟨segs, cs, h1, h2, rfl⟩ := parseAll_cons.mp h
    simp [ih h2]

/-! ### First-match resolution -/

theorem matchFirst_sound {compiled : List (List Segment)} {cs : Str} {k : Nat}
    {ps : ParamsMap} (h : matchFirst compiled cs = some (k, ps)) :
    ∃ segs bs, compiled[k]? = some segs ∧ matchSegs segs cs = some bs ∧
      ps = buildParams bs ∧
      ∀ (k' : Nat) (segs' : List Segment), k' < k → compiled[k']? = some segs' →
        matchSegs segs' cs = none := by
  induction compiled generalizing k ps with
  | nil => simp [matchFirst] at h
  | cons segs rest ih =>
    simp only [matchFirst] at h
    rcases hm : matchSegs segs cs with _ | bs <;> rw [hm] at h
    · rcases Option.map_eq_some'.mp h with ⟨⟨k1, ps1⟩, hrec, heq⟩
      obtain ⟨hk, hps⟩ := Prod.mk.injEq .. ▸ heq
      subst hk hps
      obtain ⟨segs', bs', hget, hm', hps, hearlier⟩ := ih hrec
      refine ⟨segs', bs', by simpa using hget, hm', hps, ?_⟩
      intro k' s' hk' hget'
      cases k' with
      | zero =>
        simp only [List.getElem?_cons_zero, Option.some.injEq] at hget'
        subst hget'
        exact hm
      | succ k'' =>
        exact hearlier k'' s' (by omega) (by simpa using hget')
    · injection h with h
      obtain ⟨hk, hps⟩ := Prod.mk.injEq .. ▸ h
      subst hk hps
      exact ⟨segs, bs, by simp, hm, rfl, by intro k' s' hk' _; omega⟩

theorem matchFirst_complete {compiled : List (List Segment)} {cs : Str} {k : Nat}
    {segs : List Segment} {bs : List Binding}
    (hget : compiled[k]? = some segs) (hm : matchSegs segs cs = some bs)
    (hearlier : ∀ (k' : Nat) (segs' : List Segment), k' < k →
      compiled[k']? = some segs' → matchSegs segs' cs = none) :
    matchFirst compiled cs = some (k, buildParams bs) := by
  induction compiled generalizing k with
  | nil => simp at hget
  | cons s0 rest ih =>
    cases k with
    | zero =>
      simp only [List.getElem?_cons_zero, Option.some.injEq] at hget
      subst hget
      simp [matchFirst, hm]
    | succ k' =>
      have h0 : matchSegs s0 cs = none := hearlier 0 s0 (Nat.succ_pos _) (by simp)
      simp only [matchFirst, h0]
      rw [ih (by simpa using hget)
        (fun k'' s hk'' hg => hearlier (k'' + 1) s (by omega) (by simpa using hg))]
      rfl

/-- Resolution through the compiled matcher: if route `k` parses and matches
the path while every earlier route fails to match, the matcher returns route
`k`'s handler applied to route `k`'s parameter object. -/
theorem matcher_first_match {T : Type} {routes : Table T} {m : Str → Option T}
    {p : Str} {k : Nat} {pat : Str} {hdl : ParamsMap → T} {segs : List Segment}
    {bs : List Binding}
    (hm : createMatcher routes = some m)
    (hget : routes[k]? = some (pat, hdl))
    (hparse : parseRoute pat = some segs)
    (hmatch : matchSegs segs p = some bs)
    (hearlier : ∀ (k' : Nat) (pat' : Str) (hdl' : ParamsMap → T)
      (segs' : List Segment), k' < k → routes[k']? = some (pat', hdl') →
      parseRoute pat' = some segs' → matchSegs segs' p = none) :
    m p = some (hdl (buildParams bs)) := by
  unfold createMatcher at hm
  rcases hpa : parseAll (routes.map Prod.fst) with _ | compiled <;> rw [hpa] at hm
  · simp at hm
  · injection hm with hm
    subst hm
    have hgetc : (routes.map Prod.fst)[k]? = some pat := by
      rw [List.getElem?_map, hget]
      rfl
    obtain ⟨segs0, hc, hp0⟩ := parseAll_get hpa k pat hgetc
    rw [hparse] at hp0
    injection hp0 with hp0
    subst hp0
    have hMF : matchFirst compiled p = some (k, buildParams bs) := by
      apply matchFirst_complete hc hmatch
      intro k' segs' hk' hgc
      have hlen : k' < compiled.length := by
        rcases List.getElem?_eq_some.mp hgc with ⟨hl, -⟩
        exact hl
      have hlen' : k' < routes.length := by
        have := parseAll_length hpa
        simp only [List.length_map] at this
        omega
      rcases hr : routes[k']? with _ | pr
      · rw [List.getElem?_eq_none_iff] at hr
        omega
      · have hgetc' : (routes.map Prod.fst)[k']? = some pr.1 := by
          rw [List.getElem?_map, hr]
          rfl
        obtain ⟨segs'', hc', hp'⟩ := parseAll_get hpa k' pr.1 hgetc'
        rw [hgc] at hc'
        injection hc' with hc'
        subst hc'
        exact hearlier k' pr.1 pr.2 segs' hk' (by rw [hr]) hp'
    simp [hMF, hget]

/-! ### The parameter object -/

theorem getParam_cons_ne {k' v' : Str} {l : ParamsMap} {k : Str} (h : k' ≠ k) :
    getParam ((k', v') :: l) k = getParam l k := by
  simp [getParam, List.find?, h]

theorem getParam_setParam_self (m : ParamsMap) (k v : Str) :
    getParam (setParam m k v) k = some v := by
  induction m with
  | nil => simp [setParam, getParam, List.find?]
  | cons p rest ih =>
    obtain ⟨k', v'⟩ := p
    simp only [setParam]
    by_cases h : k' = k
    · subst h
      simp [getParam, List.find?]
    · rw [if_neg h, getParam_cons_ne h]
      exact ih

theorem buildParams_last_wins (bs : List Binding) (k v : Str) :
    getParam (buildParams (bs ++ [(k, v)])) k = some v := by
  unfold buildParams
  rw [List.foldl_append]
  simp only [List.foldl_cons, List.foldl_nil]
  exact getParam_setParam_self _ _ _

theorem mem_setParam {m : ParamsMap} {k v : Str} {kv : Str × Str}
    (h : kv ∈ setParam m k v) : kv ∈ m ∨ kv = (k, v) := by
  induction m with
  | nil =>
    simp only [setParam, List.mem_singleton] at h
    exact Or.inr h
  | cons p rest ih =>
    obtain ⟨k', v'⟩ := p
    simp only [setParam] at h
    by_cases hk : k' = k
    · rw [if_pos hk] at h
      rcases List.mem_cons.mp h with rfl | h
      · exact Or.inr (by rw [hk])
      · exact Or.inl (List.mem_cons_of_mem _ h)
    · rw [if_neg hk] at h
      rcases List.mem_cons.mp h with rfl | h
      · exact Or.inl (List.mem_cons_self _ _)
      · rcases ih h with h | h
        · exact Or.inl (List.mem_cons_of_mem _ h)
        · exact Or.inr h

theorem mem_foldl_setParam {kv : Str × Str} :
    ∀ (bs : List Binding) (m : ParamsMap),
      kv ∈ List.foldl (fun m b => setParam m b.1 b.2) m bs →
        kv ∈ m ∨ ∃ v', (kv.1, v') ∈ bs
  | [], _, h => Or.inl h
  | b :: rest, m, h => by
    simp only [List.foldl_cons] at h
    rcases mem_foldl_setParam rest _ h with h'' | h''
    · rcases mem_setParam h'' with h3 | h3
      · exact Or.inl h3
      · refine Or.inr ⟨b.2, ?_⟩
        rw [h3]
        simp
    · obtain ⟨v', hv⟩ := h''
      exact Or.inr ⟨v', List.mem_cons_of_mem _ hv⟩

theorem mem_buildParams {bs : List Binding} {kv : Str × Str}
    (h : kv ∈ buildParams bs) : ∃ v', (kv.1, v') ∈ bs := by
  rcases mem_foldl_setParam bs [] h with h' | h'
  · simp at h'
  · exact h'

/-- Every capture produced by a successful segment match is either the splat
capture (with the pattern containing a splat) or named by one of the
pattern's own parameters. -/
theorem matchSegs_binding_names {segs : List Segment} {cs : Str}
    {bs : List Binding} (h : matchSegs segs cs = some bs) :
    ∀ b ∈ bs, (b.1 = ['*'] ∧ Segment.splat ∈ segs) ∨ Segment.param b.1 ∈ segs := by
  induction segs generalizing cs bs with
  | nil =>
    unfold matchSegs at h
    split_ifs at h
    injection h with h
    subst h
    simp
  | cons seg rest ih =>
    cases rest with
    | nil =>
      cases seg with
      | static v =>
        rcases matchSegs_static_last.mp h with ⟨-, rfl⟩
        simp
      | param n =>
        rcases matchSegs_param_last.mp h with ⟨-, -, rfl⟩
        simp
      | splat =>
        rcases matchSegs_splat_last.mp h with ⟨-, rfl⟩
        simp
    | cons seg2 rest2 =>
      cases seg with
      | static v =>
        simp only [matchSegs] at h
        split at h
        · next tail heq =>
          split_ifs at h with hsec
          intro b hb
          rcases ih h b hb with ⟨h1, h2⟩ | h2
          · exact Or.inl ⟨h1, List.mem_cons_of_mem _ h2⟩
          · exact Or.inr (List.mem_cons_of_mem _ h2)
        · simp at h
      | param n =>
        simp only [matchSegs] at h
        split at h
        · next tail heq =>
          split_ifs at h with hsec
          rcases Option.map_eq_some'.mp h with ⟨bs', hbs', rfl⟩
          intro b hb
          rcases List.mem_cons.mp hb with rfl | hb
          · exact Or.inr (List.mem_cons_self _ _)
          · rcases ih hbs' b hb with ⟨h1, h2⟩ | h2
            · exact Or.inl ⟨h1, List.mem_cons_of_mem _ h2⟩
            · exact Or.inr (List.mem_cons_of_mem _ h2)
        · simp at h
      | splat =>
        simp only [matchSegs] at h
        split at h
        · simp at h
        · simp at h

/-- Construction fails exactly when some route of the table has a
non-terminal splat segment. -/
theorem createMatcher_eq_none_iff {T : Type} {routes : Table T} :
    createMatcher routes = none ↔
      ∃ pr ∈ routes, hasNonTerminalSplat pr.1 = true := by
  unfold createMatcher
  rcases hpa : parseAll (routes.map Prod.fst) with _ | compiled
  · constructor
    · intro _
      obtain ⟨pat, hmem, hnone⟩ := parseAll_eq_none_iff.mp hpa
      obtain ⟨pr, hpr, rfl⟩ := List.mem_map.mp hmem
      exact ⟨pr, hpr, parseRoute_eq_none_iff.mp hnone⟩
    · intro _
      rfl
  · constructor
    · intro h
      simp at h
    · rintro ⟨pr, hpr, hsplat⟩
      exfalso
      have hnone : parseAll (routes.map Prod.fst) = none :=
        parseAll_eq_none_iff.mpr
          ⟨pr.1, List.mem_map_of_mem _ hpr, parseRoute_eq_none_iff.mpr hsplat⟩
      rw [hpa] at hnone
      simp at hnone

/-! ### Classification facts -/

theorem classifySegment_spec {seg : Str} {isLast : Bool} {s : Segment}
    (h : classifySegment seg isLast = some s) :
    (seg = ['*'] ∧ s = Segment.splat) ∨
      (seg ≠ ['*'] ∧ ∃ n, namedSegment seg = some n ∧ s = Segment.param n) ∨
      (seg ≠ ['*'] ∧ namedSegment seg = none ∧ s = Segment.static seg) := by
  unfold classifySegment at h
  by_cases hs : seg = ['*']
  · rw [if_pos hs] at h
    cases isLast with
    | true =>
      injection h with h
      exact Or.inl ⟨hs, h.symm⟩
    | false => simp at h
  · rw [if_neg hs] at h
    rcases hns : namedSegment seg with _ | n <;> rw [hns] at h <;>
      injection h with h
    · exact Or.inr (Or.inr ⟨hs, rfl, h.symm⟩)
    · exact Or.inr (Or.inl ⟨hs, n, rfl, h.symm⟩)

theorem classifyAll_length {parts : List Str} {segs : List Segment}
    (h : classifyAll parts = some segs) : segs.length = parts.length := by
  induction parts generalizing segs with
  | nil =>
    simp only [classifyAll] at h
    injection h with h
    simp [← h]
  | cons seg rest ih =>
    cases rest with
    | nil =>
      rcases Option.map_eq_some'.mp h with ⟨s, -, rfl⟩
      rfl
    | cons seg2 rest2 =>
      simp only [classifyAll] at h
      rcases Option.bind_eq_some.mp h with ⟨s, -, hm⟩
      rcases Option.map_eq_some'.mp hm with ⟨ss, hss, rfl⟩
      simp [ih hss]

theorem classifyAll_all_static {parts : List Str} {segs : List Segment}
    (h : classifyAll parts = some segs)
    (hs : ∀ s ∈ segs, isStaticSeg s = true) :
    segs = parts.map Segment.static := by
  induction parts generalizing segs with
  | nil =>
    simp only [classifyAll] at h
    injection h with h
    simp [← h]
  | cons seg rest ih =>
    cases rest with
    | nil =>
      rcases Option.map_eq_some'.mp h with ⟨s, hc, rfl⟩
      have hs1 := hs s (List.mem_cons_self _ _)
      rcases classifySegment_spec hc with ⟨-, rfl⟩ | ⟨-, n, -, rfl⟩ | ⟨-, -, rfl⟩
      · simp [isStaticSeg] at hs1
      · simp [isStaticSeg] at hs1
      · rfl
    | cons seg2 rest2 =>
      simp only [classifyAll] at h
      rcases Option.bind_eq_some.mp h with ⟨s, hc, hm⟩
      rcases Option.map_eq_some'.mp hm with ⟨ss, hss, rfl⟩
      have hs1 := hs s (List.mem_cons_self _ _)
      rcases classifySegment_spec hc with ⟨-, rfl⟩ | ⟨-, n, -, rfl⟩ | ⟨-, -, rfl⟩
      · simp [isStaticSeg] at hs1
      · simp [isStaticSeg] at hs1
      · rw [ih hss (fun x hx => hs x (List.mem_cons_of_mem _ hx))]
        rfl

/-! ### All-static patterns match exactly their own text -/

theorem matchSegs_all_static {parts : List Str} {p : Str}
    (hns : ∀ part ∈ parts, ∀ c ∈ part, c ≠ '/') (hne : parts ≠ []) :
    (matchSegs (parts.map Segment.static) p).isSome ↔ p = joinSlash parts := by
  induction parts generalizing p with
  | nil => exact absurd rfl hne
  | cons v rest ih =>
    cases rest with
    | nil =>
      simp only [List.map_cons, List.map_nil, joinSlash]
      constructor
      · intro h
        obtain ⟨bs, hbs⟩ := Option.isSome_iff_exists.mp h
        exact (matchSegs_static_last.mp hbs).1
      · intro h
        subst h
        rw [Option.isSome_iff_exists]
        exact ⟨[], matchSegs_static_last.mpr ⟨rfl, rfl⟩⟩
    | cons v2 rest2 =>
      have hv : ∀ c ∈ v, c ≠ '/' := hns v (List.mem_cons_self _ _)
      have hns' : ∀ part ∈ v2 :: rest2, ∀ c ∈ part, c ≠ '/' :=
        fun part hp => hns part (List.mem_cons_of_mem _ hp)
      constructor
      · intro h
        obtain ⟨bs, hbs⟩ := Option.isSome_iff_exists.mp h
        obtain ⟨tail, rfl, hm⟩ :=
          (@matchSegs_static_cons v (Segment.static v2)
            (rest2.map Segment.static) p bs hv).mp (by simpa using hbs)
        have htail : tail = joinSlash (v2 :: rest2) :=
          (ih hns' (by simp)).mp (by simp only [List.map_cons]; rw [hm]; rfl)
        rw [htail]
        rfl
      · intro h
        subst h
        have htail : (matchSegs ((v2 :: rest2).map Segment.static)
            (joinSlash (v2 :: rest2))).isSome = true := (ih hns' (by simp)).mpr rfl
        obtain ⟨bs, hbs⟩ := Option.isSome_iff_exists.mp htail
        rw [Option.isSome_iff_exists]
        refine ⟨bs, ?_⟩
        have := (@matchSegs_static_cons v (Segment.static v2)
          (rest2.map Segment.static) _ bs hv).mpr
          ⟨joinSlash (v2 :: rest2), rfl, by simpa using hbs⟩
        simpa [joinSlash] using this

/-- A pattern all of whose segments are static matches exactly its own
text, and nothing else. -/
theorem static_pattern_matches_only_itself {pat : Str} {segs : List Segment}
    {p : Str} (hp : parseRoute pat = some segs)
    (hs : ∀ s ∈ segs, isStaticSeg s = true) :
    (matchSegs segs p).isSome ↔ p = pat := by
  unfold parseRoute at hp
  have hmap := classifyAll_all_static hp hs
  subst hmap
  rw [matchSegs_all_static (splitOnSlash_no_slash pat) (splitOnSlash_ne_nil pat),
    joinSlash_splitOnSlash]

/-! ### Substitution: href against the specified reconstruction -/

theorem subst_classify {seg : Str} {isLast : Bool} {s : Segment}
    (params : Str → Str) (h : classifySegment seg isLast = some s) :
    substSeg params s = substPart params seg := by
  rcases classifySegment_spec h with ⟨h1, rfl⟩ | ⟨h1, n, hn, rfl⟩ | ⟨h1, hn, rfl⟩
  · simp [substSeg, substPart, h1]
  · simp [substSeg, substPart, h1, hn]
  · simp [substSeg, substPart, h1, hn]

theorem classifyAll_subst {parts : List Str} {segs : List Segment}
    (params : Str → Str) (h : classifyAll parts = some segs) :
    segs.map (substSeg params) = parts.map (substPart params) := by
  induction parts generalizing segs with
  | nil =>
    simp only [classifyAll] at h
    injection h with h
    simp [← h]
  | cons seg rest ih =>
    cases rest with
    | nil =>
      rcases Option.map_eq_some'.mp h with ⟨s, hc, rfl⟩
      simp only [List.map_cons, List.map_nil]
      rw [subst_classify params hc]
    | cons seg2 rest2 =>
      simp only [classifyAll] at h
      rcases Option.bind_eq_some.mp h with ⟨s, hc, hm⟩
      rcases Option.map_eq_some'.mp hm with ⟨ss, hss, rfl⟩
      simp only [List.map_cons]
      rw [subst_classify params hc, ih hss]
      rfl

/-- `href` computes exactly the amended reconstruction of the pattern. -/
theorem href_eq_hrefAmended {pat : Str} {segs : List Segment}
    (params : Str → Str) (h : parseRoute pat = some segs) :
    href segs params = hrefAmended pat params := by
  unfold parseRoute at h
  unfold href hrefAmended
  rw [classifyAll_subst params h]
  by_cases hu : joinSlash ((splitOnSlash pat).map (substPart params)) = [] <;>
    simp [hu]

/-! ### Leading-slash shape -/

/-- A pattern that starts with `/` only matches paths that start with `/`. -/
theorem leading_slash_only {pat : Str} {segs : List Segment} {p : Str}
    {bs : List Binding} (hpat : pat.head? = some '/')
    (hp : parseRoute pat = some segs) (hm : matchSegs segs p = some bs) :
    p.head? = some '/' := by
  cases pat with
  | nil => simp at hpat
  | cons c rest =>
    simp only [List.head?_cons, Option.some.injEq] at hpat
    subst hpat
    unfold parseRoute at hp
    simp only [splitOnSlash, if_pos rfl] at hp
    obtain ⟨t, ts, hsplit⟩ := List.exists_cons_of_ne_nil (splitOnSlash_ne_nil rest)
    rw [hsplit] at hp
    simp only [classifyAll] at hp
    rcases Option.bind_eq_some.mp hp with ⟨s, hc, hmm⟩
    rcases Option.map_eq_some'.mp hmm with ⟨ss, hss, rfl⟩
    have hs : s = Segment.static [] := by
      rcases classifySegment_spec hc with ⟨h1, rfl⟩ | ⟨h1, n, hn, rfl⟩ | ⟨-, -, rfl⟩
      · cases h1
      · simp [namedSegment] at hn
      · rfl
    subst hs
    have hlen : ss.length = (t :: ts).length := classifyAll_length hss
    obtain ⟨s2, ss2, rfl⟩ : ∃ s2 ss2, ss = s2 :: ss2 := by
      cases ss with
      | nil => simp at hlen
      | cons a b => exact ⟨a, b, rfl⟩
    obtain ⟨tail, rfl, -⟩ :=
      (matchSegs_static_cons (by simp)).mp hm
    rfl

/-- A pattern that starts with a character other than `/`, and is not the
bare splat pattern `*`, never matches a path that starts with `/`. -/
theorem no_leading_slash_only {pat : Str} {segs : List Segment} {p : Str}
    {bs : List Binding} {c : Char} (hpat : pat.head? = some c) (hc : c ≠ '/')
    (hstar : pat ≠ ['*']) (hp : parseRoute pat = some segs)
    (hm : matchSegs segs p = some bs) : p.head? ≠ some '/' := by
  cases pat with
  | nil => simp at hpat
  | cons c0 rest =>
    simp only [List.head?_cons, Option.some.injEq] at hpat
    subst hpat
    unfold parseRoute at hp
    simp only [splitOnSlash, if_neg hc] at hp
    obtain ⟨t, ts, hsplit⟩ := List.exists_cons_of_ne_nil (splitOnSlash_ne_nil rest)
    rw [hsplit] at hp
    have hfirst : ∀ x ∈ (c0 :: t : Str), x ≠ '/' := by
      have := splitOnSlash_no_slash (c0 :: rest)
      simp only [splitOnSlash, if_neg hc, hsplit] at this
      exact this (c0 :: t) (List.mem_cons_self _ _)
    cases ts with
    | nil =>
      rcases Option.map_eq_some'.mp hp with ⟨s, hcs, rfl⟩
      rcases classifySegment_spec hcs with ⟨h1, rfl⟩ | ⟨h1, n, hn, rfl⟩ | ⟨h1, hn, rfl⟩
      · exfalso
        apply hstar
        have := joinSlash_splitOnSlash (c0 :: rest)
        simp only [splitOnSlash, if_neg hc, hsplit] at this
        rw [← this, h1]
        rfl
      · rcases matchSegs_param_last.mp hm with ⟨hne, hall, rfl⟩
        cases p with
        | nil => exact absurd rfl hne
        | cons d ds =>
          simp only [List.head?_cons, ne_eq, Option.some.injEq]
          exact hall d (List.mem_cons_self _ _)
      · rcases matchSegs_static_last.mp hm with ⟨rfl, rfl⟩
        simp only [List.head?_cons, ne_eq, Option.some.injEq]
        exact hc
    | cons t2 ts2 =>
      simp only [classifyAll] at hp
      rcases Option.bind_eq_some.mp hp with ⟨s, hcs, hmm⟩
      rcases Option.map_eq_some'.mp hmm with ⟨ss, hss, rfl⟩
      have hlen : ss.length = (t2 :: ts2).length := classifyAll_length hss
      obtain ⟨s2, ss2, rfl⟩ : ∃ s2 ss2, ss = s2 :: ss2 := by
        cases ss with
        | nil => simp at hlen
        | cons a b => exact ⟨a, b, rfl⟩
      rcases classifySegment_spec hcs with ⟨h1, rfl⟩ | ⟨h1, n, hn, rfl⟩ | ⟨h1, hn, rfl⟩
      · rw [classifySegment_false_eq_none_iff.mpr h1] at hcs
        cases hcs
      · obtain ⟨sec, tail, bs', rfl, hne, hall, -, -⟩ :=
          matchSegs_param_cons.mp hm
        cases sec with
        | nil => exact absurd rfl hne
        | cons d ds =>
          simp only [List.cons_append, List.head?_cons, ne_eq, Option.some.injEq]
          exact hall d (List.mem_cons_self _ _)
      · obtain ⟨tail, rfl, -⟩ := (matchSegs_static_cons hfirst).mp hm
        simp only [List.cons_append, List.head?_cons, ne_eq, Option.some.injEq]
        exact hc

/-- For a single-route table, resolution succeeds exactly when the single
pattern's segments match the path. -/
theorem resolve_single_isSome {T : Type} {pat : Str} {hdl : ParamsMap → T}
    {segs : List Segment} {p : Str} (hp : parseRoute pat = some segs) :
    (resolve [(pat, hdl)] p).isSome ↔ (matchSegs segs p).isSome := by
  unfold resolve createMatcher
  have hpa : parseAll [pat] = some [segs] := by
    simp [parseAll, hp]
  simp only [List.map_cons, List.map_nil]
  rw [hpa]
  rcases hm : matchSegs segs p with _ | bs <;>
    simp [matchFirst, hm]

/-- In a parsed pattern, a splat segment can only be the final segment. -/
theorem classifyAll_splat_last {parts : List Str} {segs : List Segment}
    (h : classifyAll parts = some segs) (hs : Segment.splat ∈ segs) :
    segs.getLast? = some Segment.splat := by
  induction parts generalizing segs with
  | nil =>
    simp only [classifyAll] at h
    injection h with h
    rw [← h] at hs
    simp at hs
  | cons seg rest ih =>
    cases rest with
    | nil =>
      rcases Option.map_eq_some'.mp h with ⟨s, -, rfl⟩
      rcases List.mem_singleton.mp hs with rfl
      rfl
    | cons seg2 rest2 =>
      simp only [classifyAll] at h
      rcases Option.bind_eq_some.mp h with ⟨s, hc, hm⟩
      rcases Option.map_eq_some'.mp hm with ⟨ss, hss, rfl⟩
      have hlen : ss.length = (seg2 :: rest2).length := classifyAll_length hss
      obtain ⟨s2, ss2, rfl⟩ : ∃ s2 ss2, ss = s2 :: ss2 := by
        cases ss with
        | nil => simp at hlen
        | cons a b => exact ⟨a, b, rfl⟩
      have hsne : s ≠ Segment.splat := by
        intro hEq
        subst hEq
        rcases classifySegment_spec hc with ⟨h1, -⟩ | ⟨-, n, -, hEq⟩ | ⟨-, -, hEq⟩
        · rw [classifySegment_false_eq_none_iff.mpr h1] at hc
          cases hc
        · cases hEq
        · cases hEq
      have hs' : Segment.splat ∈ s2 :: ss2 := by
        rcases List.mem_cons.mp hs with hEq | hs'
        · exact absurd hEq.symm hsne
        · exact hs'
      rw [List.getLast?_cons_cons]
      exact ih hss hs'

/-! ### The side table decodes outer groups back to route indices

When the combined alternation matches, the first participating capture group
(scanned by `findIndex` skipping index 0) is the matched route's outer
group; its zero-based position among the capture groups is `prefixCaps`, and
the `mapping` side table built by `createMatcher` takes it back to the route
index. -/

theorem lookupMapping_cons_self {i j : Nat} {rest : List (Nat × Nat)} :
    lookupMapping ((i, j) :: rest) i = some j := by
  simp [lookupMapping, List.find?]

theorem lookupMapping_cons_ne {i j idx : Nat} {rest : List (Nat × Nat)}
    (h : i ≠ idx) : lookupMapping ((i, j) :: rest) idx = lookupMapping rest idx := by
  simp [lookupMapping, List.find?, h]

theorem lookupMapping_buildMapping :
    ∀ (compiled : List (List Segment)) (i j k : Nat), k < compiled.length →
      lookupMapping (buildMapping compiled i j) (i + prefixCaps compiled k)
        = some (j + k)
  | [], _, _, k, h => absurd h (by simp)
  | segs :: rest, i, j, 0, _ => by
    simp only [prefixCaps, Nat.add_zero, buildMapping]
    exact lookupMapping_cons_self
  | segs :: rest, i, j, k + 1, h => by
    simp only [prefixCaps, buildMapping]
    rw [lookupMapping_cons_ne (by omega)]
    have hk : k < rest.length := by
      simp only [List.length_cons] at h
      omega
    have ih := lookupMapping_buildMapping rest (i + 1 + numCaps segs) (j + 1) k hk
    rw [show i + (1 + numCaps segs + prefixCaps rest k)
        = (i + 1 + numCaps segs) + prefixCaps rest k by omega]
    rw [ih]
    congr 1
    omega

/-- `mapping[outerGroupNumber - 1] = k`: decoding the side table at the
matched route's outer-group position recovers the route index. -/
theorem mapping_decodes {compiled : List (List Segment)} {k : Nat}
    (h : k < compiled.length) :
    lookupMapping (buildMapping compiled 0 0) (prefixCaps compiled k)
      = some k := by
  have := lookupMapping_buildMapping compiled 0 0 k h
  simpa using this

/-! ### The claims -/

/-- C1: For every route table and every path, when the path could satisfy the
shape of more than one registered pattern, `resolve` selects the first
pattern in registration order that actually matches the path (in general: if
route `k` parses and matches the path and every earlier registered route
fails to match, the compiled matcher returns route `k`'s handler applied to
its extracted parameters); concretely,
`build([("user/profile", h1), ("user/:action", h2)])` resolves
`"user/profile"` to `h1`, and with the two registrations in reversed order
it resolves to `h2`. -/
theorem claim_c1_first_registered_wins :
    (∀ (T : Type) (routes : Table T) (m : Str → Option T) (p : Str) (k : Nat)
      (pat : Str) (hdl : ParamsMap → T) (segs : List Segment)
      (bs : List Binding),
      createMatcher routes = some m →
      routes[k]? = some (pat, hdl) →
      parseRoute pat = some segs →
      matchSegs segs p = some bs →
      (∀ (k' : Nat) (pat' : Str) (hdl' : ParamsMap → T)
        (segs' : List Segment), k' < k → routes[k']? = some (pat', hdl') →
        parseRoute pat' = some segs' → matchSegs segs' p = none) →
      m p = some (hdl (buildParams bs))) ∧
    resolve [(str "user/profile", tag "h1"), (str "user/:action", tag "h2")]
      (str "user/profile") = some ("h1", []) ∧
    resolve [(str "user/:action", tag "h2"), (str "user/profile", tag "h1")]
      (str "user/profile") = some ("h2", [(str "action", str "profile")]) :=
  ⟨fun _ _ _ _ _ _ _ _ _ hm hget hparse hmatch hearlier =>
    matcher_first_match hm hget hparse hmatch hearlier,
    by decide, by decide⟩

/-- Witness for C1: instantiating the general statement on the two-route
table at path `"user/profile"` with `k = 0`. -/
theorem claim_c1_witness :
    (createMatcher [(str "user/profile", tag "h1"),
        (str "user/:action", tag "h2")]).bind
      (fun m => m (str "user/profile")) = some ("h1", []) := by
  rcases hcm : createMatcher [(str "user/profile", tag "h1"),
      (str "user/:action", tag "h2")] with _ | m
  · exact Option.noConfusion hcm
  · rw [Option.some_bind]
    exact claim_c1_first_registered_wins.1 (String × ParamsMap) _ m
      (str "user/profile") 0 (str "user/profile") (tag "h1")
      [Segment.static (str "user"), Segment.static (str "profile")] []
      hcm rfl (by decide) (by decide)
      (fun k' _ _ _ hk' _ _ => absurd hk' (by omega))

/-- C2: For the single-route table `[("user/:id", h)]`, `resolve` returns
`(h, {id: "123"})` for path `"user/123"`, and no-match for `"user"` and for
`"user/123/x"`; in general a Param segment matches exactly one non-empty run
of non-`/` characters, and matching is anchored over the whole path with no
trailing-garbage tolerance. -/
theorem claim_c2_param_extraction :
    resolve [(str "user/:id", obs)] (str "user/123")
        = some [(str "id", str "123")] ∧
    resolve [(str "user/:id", obs)] (str "user") = none ∧
    resolve [(str "user/:id", obs)] (str "user/123/x") = none ∧
    parseRoute (str "user/:id")
        = some [Segment.static (str "user"), Segment.param (str "id")] ∧
    (∀ (p : Str) (bs : List Binding),
      matchSegs [Segment.static (str "user"), Segment.param (str "id")] p
          = some bs ↔
        ∃ s, p = str "user" ++ '/' :: s ∧ s ≠ [] ∧ (∀ c ∈ s, c ≠ '/') ∧
          bs = [(str "id", s)]) := by
  refine ⟨by decide, by decide, by decide, by decide, ?_⟩
  intro p bs
  rw [matchSegs_static_cons (by decide)]
  constructor
  · rintro ⟨tail, rfl, hm⟩
    rcases matchSegs_param_last.mp hm with ⟨h1, h2, rfl⟩
    exact ⟨tail, rfl, h1, h2, rfl⟩
  · rintro ⟨s, rfl, h1, h2, rfl⟩
    exact ⟨s, rfl, matchSegs_param_last.mpr ⟨h1, h2, rfl⟩⟩

/-- Witness for C2: the characterization applied at the concrete path
`"user/abc"`. -/
theorem claim_c2_witness :
    matchSegs [Segment.static (str "user"), Segment.param (str "id")]
        (str "user/abc") = some [(str "id", str "abc")] :=
  (claim_c2_param_extraction.2.2.2.2 (str "user/abc")
      [(str "id", str "abc")]).mpr
    ⟨str "abc", by decide, by decide, by decide, rfl⟩

/-- C3 counterexample: the path `"files/a\nb"` is `"files/"` followed by the
remainder `"a\nb"`, yet the table `[("files/*", h)]` does not match it at
all — the compiled `(?<splat>.*)` cannot match a line terminator — so a
trailing splat does not capture every remainder of the path. -/
theorem claim_c3_counterexample :
    str "files/a\nb" = str "files/" ++ str "a\nb" ∧
    resolve [(str "files/*", obs)] (str "files/a\nb") = none :=
  ⟨by decide, by decide⟩

/-- C3 (amended): For the single-route table `[("files/*", h)]`, `resolve`
on `"files/a/b.txt"` returns `(h, {"*": "a/b.txt"})`: a trailing Splat
segment captures the entire remainder of the path — including any number of
`/`-separated segments — under the reserved `"*"` key, provided the
remainder contains no line-terminator character (U+000A, U+000D, U+2028,
U+2029); it accepts an empty remainder, so `"files/"` matches with `"*"`
bound to the empty string; a remainder containing a line terminator does not
match. -/
theorem claim_c3_splat_amended :
    resolve [(str "files/*", obs)] (str "files/a/b.txt")
        = some [(str "*", str "a/b.txt")] ∧
    resolve [(str "files/*", obs)] (str "files/")
        = some [(str "*", str "")] ∧
    parseRoute (str "files/*")
        = some [Segment.static (str "files"), Segment.splat] ∧
    (∀ (p : Str) (bs : List Binding),
      matchSegs [Segment.static (str "files"), Segment.splat] p = some bs ↔
        ∃ rest, p = str "files" ++ '/' :: rest ∧
          (∀ c ∈ rest, isLineTerminator c = false) ∧
          bs = [(str "*", rest)]) := by
  refine ⟨by decide, by decide, by decide, ?_⟩
  intro p bs
  rw [matchSegs_static_cons (by decide)]
  constructor
  · rintro ⟨tail, rfl, hm⟩
    rcases matchSegs_splat_last.mp hm with ⟨h1, rfl⟩
    exact ⟨tail, rfl, h1, rfl⟩
  · rintro ⟨rest, rfl, h1, rfl⟩
    exact ⟨rest, rfl, matchSegs_splat_last.mpr ⟨h1, rfl⟩⟩

/-- Witness for C3: the amended characterization applied at the concrete
path `"files/a/b"`. -/
theorem claim_c3_witness :
    matchSegs [Segment.static (str "files"), Segment.splat] (str "files/a/b")
        = some [(str "*", str "a/b")] :=
  (claim_c3_splat_amended.2.2.2 (str "files/a/b") [(str "*", str "a/b")]).mpr
    ⟨str "a/b", by decide, by decide, rfl⟩

/-- C4: `build` raises a ConstructionError exactly when some pattern in the
table places a `*` (Splat) segment anywhere other than the final position —
e.g. `build([("files/*/more", h)])` raises — and there are no other
construction-time failures: on every table whose patterns have no
non-terminal splat, `build` succeeds. -/
theorem claim_c4_construction_error :
    createMatcher [(str "files/*/more", obs)] = none ∧
    (∀ (T : Type) (routes : Table T),
      createMatcher routes = none ↔
        ∃ pr ∈ routes, hasNonTerminalSplat pr.1 = true) :=
  ⟨rfl, fun _ _ => createMatcher_eq_none_iff⟩

/-- Witness for C4: the characterization applied to a concrete two-route
table containing a non-terminal splat. -/
theorem claim_c4_witness :
    createMatcher [(str "ok", obs), (str "files/*/more", obs)] = none :=
  (claim_c4_construction_error.2 ParamsMap _).mpr
    ⟨(str "files/*/more", obs),
      List.mem_cons_of_mem _ (List.mem_cons_self _ _), by decide⟩

/-- C5: A path segment matches a Static segment exactly when it is
character-for-character identical to it: a pattern all of whose segments are
static matches precisely its own text, and concretely patterns containing
regular-expression meta-characters such as `(`, `)`, `.`, `+`, `[`, `]`
match only their literal text, never acting as matching operators. -/
theorem claim_c5_literal_safety :
    (∀ (pat : Str) (segs : List Segment) (p : Str),
      parseRoute pat = some segs →
      (∀ s ∈ segs, isStaticSeg s = true) →
      ((matchSegs segs p).isSome ↔ p = pat)) ∧
    resolve [(str "products/(.*)", obs)] (str "products/(.*)") = some [] ∧
    resolve [(str "products/(.*)", obs)] (str "products/anything") = none ∧
    resolve [(str "files/(id+)", obs)] (str "files/(id+)") = some [] ∧
    resolve [(str "files/(id+)", obs)] (str "files/(iddd)") = none ∧
    resolve [(str "search/[query]", obs)] (str "search/[query]") = some [] ∧
    resolve [(str "search/[query]", obs)] (str "search/q") = none ∧
    resolve [(str "a.b", obs)] (str "aXb") = none ∧
    resolve [(str "x.y/:id", obs)] (str "x.y/1") = some [(str "id", str "1")] ∧
    resolve [(str "x.y/:id", obs)] (str "xAy/1") = none := by
  refine ⟨?_, by decide, by decide, by decide, by decide, by decide,
    by decide, by decide, by decide, by decide⟩
  intro pat segs p hp hs
  exact static_pattern_matches_only_itself hp hs

/-- Witness for C5: the general statement applied to the concrete all-static
pattern `"a(b)/c.d"` at its own text. -/
theorem claim_c5_witness :
    (matchSegs [Segment.static (str "a(b)"), Segment.static (str "c.d")]
      (str "a(b)/c.d")).isSome :=
  (claim_c5_literal_safety.1 (str "a(b)/c.d")
    [Segment.static (str "a(b)"), Segment.static (str "c.d")]
    (str "a(b)/c.d") (by decide) (by decide)).mpr (by decide)

/-- C6 counterexample: for the route `"files/*"` with the parameter map
sending every key to `"a b"`, `href` returns `"/files/a b"` — the splat
value is substituted verbatim and a leading `/` is prepended — which differs
from the claimed literal reconstruction `"files/a%20b"` with the
percent-encoded splat value. -/
theorem claim_c6_counterexample :
    parseRoute (str "files/*")
        = some [Segment.static (str "files"), Segment.splat] ∧
    href [Segment.static (str "files"), Segment.splat] (fun _ => str "a b")
        = str "/files/a b" ∧
    hrefClaimed (str "files/*") (fun _ => str "a b") = str "files/a%20b" ∧
    href [Segment.static (str "files"), Segment.splat] (fun _ => str "a b")
        ≠ hrefClaimed (str "files/*") (fun _ => str "a b") :=
  ⟨by decide, by decide, by decide, by decide⟩

/-- C6 (amended): For every route and every concrete parameter map supplying
its parameters, `href` substitutes each Param segment with the
percent-encoded parameter value, substitutes each Splat segment with the
parameter value verbatim (not percent-encoded), leaves every Static segment
untouched, and normalizes the result to start with `/` (an empty result
becomes `/`). -/
theorem claim_c6_href_amended :
    ∀ (pat : Str) (segs : List Segment) (params : Str → Str),
      parseRoute pat = some segs → href segs params = hrefAmended pat params :=
  fun _ _ params h => href_eq_hrefAmended params h

/-- Witness for C6: the amended statement applied to the concrete route
`"user/:id"`. -/
theorem claim_c6_witness :
    href [Segment.static (str "user"), Segment.param (str "id")]
        (fun _ => str "a b")
      = hrefAmended (str "user/:id") (fun _ => str "a b") :=
  claim_c6_href_amended (str "user/:id")
    [Segment.static (str "user"), Segment.param (str "id")]
    (fun _ => str "a b") (by decide)

/-- C7: Patterns are compared against paths literally segment-by-segment
including the leading empty segment produced by a leading `/`: the pattern
`""` matches only the empty path, the pattern `"/home"` matches `"/home"`
and not `"home"`, the pattern `"home"` matches `"home"` and not `"/home"`;
in general a pattern starting with `/` only matches paths starting with `/`,
and a pattern starting with any other character (other than the bare splat
pattern `"*"`) never matches a path starting with `/`. -/
theorem claim_c7_leading_slash :
    (∀ p : Str, (resolve [(str "", obs)] p).isSome ↔ p = []) ∧
    resolve [(str "/home", obs)] (str "/home") = some [] ∧
    resolve [(str "/home", obs)] (str "home") = none ∧
    resolve [(str "home", obs)] (str "home") = some [] ∧
    resolve [(str "home", obs)] (str "/home") = none ∧
    (∀ (pat : Str) (segs : List Segment) (p : Str) (bs : List Binding),
      pat.head? = some '/' → parseRoute pat = some segs →
      matchSegs segs p = some bs → p.head? = some '/') ∧
    (∀ (pat : Str) (segs : List Segment) (p : Str) (bs : List Binding)
      (c : Char), pat.head? = some c → c ≠ '/' → pat ≠ ['*'] →
      parseRoute pat = some segs → matchSegs segs p = some bs →
      p.head? ≠ some '/') := by
  refine ⟨?_, by decide, by decide, by decide, by decide,
    fun _ _ _ _ h1 h2 h3 => leading_slash_only h1 h2 h3,
    fun _ _ _ _ _ h1 h2 h3 h4 h5 => no_leading_slash_only h1 h2 h3 h4 h5⟩
  intro p
  have hp : parseRoute (str "") = some [Segment.static []] := by decide
  rw [resolve_single_isSome hp,
    static_pattern_matches_only_itself hp (by decide)]
  exact Iff.rfl

/-- Witness for C7: the leading-slash direction applied to the concrete
pattern `"/home"` matching the concrete path `"/home"`. -/
theorem claim_c7_witness : (str "/home").head? = some '/' :=
  claim_c7_leading_slash.2.2.2.2.2.1 (str "/home")
    [Segment.static [], Segment.static (str "home")] (str "/home") []
    (by decide) (by decide) (by decide)

/-- C8: When a single pattern reuses the same parameter name at two
different positions (e.g. `"/:id/posts/:id"`) and a path matches it, the
match is accepted without a construction-time error and the returned
parameter map binds that name to the value captured by the later occurrence
in the pattern (in general, after the capture list writes a key last, the
parameter object holds that last-written value). -/
theorem claim_c8_duplicate_param :
    (createMatcher [(str "/:id/posts/:id", obs)]).isSome = true ∧
    resolve [(str "/:id/posts/:id", obs)] (str "/1/posts/2")
        = some [(str "id", str "2")] ∧
    (∀ (bs : List Binding) (k v : Str),
      getParam (buildParams (bs ++ [(k, v)])) k = some v) :=
  ⟨rfl, by decide, fun bs k v => buildParams_last_wins bs k v⟩

/-- C9: The matcher built from the empty route table matches nothing: for
every path, including the empty string, it returns no-match (and building
the empty table is not an error). -/
theorem claim_c9_empty_table (T : Type) :
    ∃ m, createMatcher ([] : Table T) = some m ∧
      (∀ p : Str, m p = none) ∧ m [] = none :=
  ⟨_, rfl, fun _ => rfl, rfl⟩

/-- C10: On every successful match, every key of the returned parameter map
is either a parameter name occurring in the matched pattern itself or the
reserved `"*"` key — the latter only when the matched pattern contains a
splat, which in any parsed pattern can only be the final segment; captures
belonging to the other, non-matched patterns in the table never contribute
entries to the map. -/
theorem claim_c10_params_from_matched_pattern :
    (∀ (compiled : List (List Segment)) (p : Str) (k : Nat) (ps : ParamsMap),
      matchFirst compiled p = some (k, ps) →
      ∃ segs, compiled[k]? = some segs ∧
        ∀ kv ∈ ps, (kv.1 = str "*" ∧ Segment.splat ∈ segs) ∨
          Segment.param kv.1 ∈ segs) ∧
    (∀ (pat : Str) (segs : List Segment), parseRoute pat = some segs →
      Segment.splat ∈ segs → segs.getLast? = some Segment.splat) := by
  constructor
  · intro compiled p k ps h
    obtain ⟨segs, bs, hget, hm, rfl, -⟩ := matchFirst_sound h
    refine ⟨segs, hget, ?_⟩
    intro kv hkv
    obtain ⟨v', hv⟩ := mem_buildParams hkv
    have := matchSegs_binding_names hm (kv.1, v') hv
    simpa using this
  · intro pat segs hp hs
    unfold parseRoute at hp
    exact classifyAll_splat_last hp hs

/-- Witness for C10: the key-origin statement applied to the concrete
compiled table `[[:x]]` matching the path `"abc"`. -/
theorem claim_c10_witness :
    ∃ segs, ([[Segment.param (str "x")]] : List (List Segment))[0]?
        = some segs ∧
      ∀ kv ∈ ([(str "x", str "abc")] : ParamsMap),
        (kv.1 = str "*" ∧ Segment.splat ∈ segs) ∨
          Segment.param kv.1 ∈ segs :=
  claim_c10_params_from_matched_pattern.1 [[Segment.param (str "x")]]
    (str "abc") 0 [(str "x", str "abc")] (by decide)

end Router
